import Mathlib

/-!
Verification of the layout / instruction-graph compiler of the
team-short-automation repository (scripts/render_video.js and its
variants, scripts/youtube_upload.js).

JavaScript strings are modelled as Lean `String`/`List Char` (sequences
of Unicode code points); where the source measures `String.prototype.length`
(UTF-16 code units) we measure with `jsLen`, which counts 2 units for a
supplementary-plane code point.  The Unicode canonical-composition step
`String.prototype.normalize("NFC")` is an opaque library call; the
embedding is parametrised over it (`nfc : String → String`), and concrete
evaluations instantiate it with `id`, which agrees with real NFC on all
strings appearing in those evaluations (ASCII, U+FEFF and U+1F600 are
NFC-inert: none has a canonical decomposition and none is produced by
canonical composition).
-/

namespace ShortRender

/-- UTF-16 length of one code point, as JavaScript's `String.prototype.length`
counts it: supplementary-plane code points take a surrogate pair. -/
def utf16Len (c : Char) : Nat :=
  if c.toNat < 65536 then 1 else 2

/-- JavaScript `String.prototype.length` of a list of code points. -/
def jsLen (l : List Char) : Nat :=
  (l.map utf16Len).sum

/-- Membership of the JavaScript regular-expression class `\s`
(whitespace used by `split(/\s+/)` and `String.prototype.trim`). -/
def isWsJS (c : Char) : Bool :=
  c = ' ' || c = '\t' || c = '\n' || c = '\r' ||
  c = '\x0b' || c = '\x0c' || c = ' ' || c = ' ' ||
  (0x2000 ≤ c.toNat && c.toNat ≤ 0x200A) ||
  c = ' ' || c = ' ' || c = ' ' || c = ' ' ||
  c = '　' || c = '﻿'

/-- The byte-order mark U+FEFF. -/
def bomChar : Char := '﻿'

/-- Per-character action of `toASCIIQuotes`
(render_video.js: `.replace(/[“”]/g,'"').replace(/[‘’]/g,"'").replace(/ /g," ")`). -/
def quoteChar (c : Char) : Char :=
  if c = '“' || c = '”' then '"'
  else if c = '‘' || c = '’' then '\''
  else if c = ' ' then ' '
  else c

/-- `toASCIIQuotes` from render_video.js lines 178-180. -/
def toASCIIQuotes (l : List Char) : List Char :=
  l.map quoteChar

/-- The character class removed by `stripControls`
(render_video.js line 181: `[\u0000-\u0008\u000B\u000C\u000E-\u001F\u007F]`). -/
def isStrippedControl (c : Char) : Bool :=
  c.toNat ≤ 0x8 || c.toNat = 0xB || c.toNat = 0xC ||
  (0xE ≤ c.toNat && c.toNat ≤ 0x1F) || c.toNat = 0x7F

/-- `stripControls` from render_video.js line 181. -/
def stripControls (l : List Char) : List Char :=
  l.filter (fun c => !isStrippedControl c)

/-- `stripBOM` from render_video.js line 182: `s.replace(/^﻿/, "")`
removes at most one leading U+FEFF. -/
def stripBOM (l : List Char) : List Char :=
  match l with
  | [] => []
  | c :: rest => if c = bomChar then rest else c :: rest

/-- The pure pre-NFC part of `normalize`:
`stripControls(toASCIIQuotes(stripBOM(s)))` applied to code points
after the single leading-BOM strip has been handled separately. -/
def preNorm (l : List Char) : List Char :=
  stripControls (toASCIIQuotes l)

/-- `normalize` from render_video.js line 183, parametrised by the opaque
Unicode canonical-composition call `nfc` standing for
`String.prototype.normalize("NFC")`:
`s => stripControls(toASCIIQuotes(stripBOM(String(s||"")))).normalize("NFC")`. -/
def normalizeWith (nfc : String → String) (s : String) : String :=
  nfc (String.mk (preNorm (stripBOM s.data)))

/-- The loop of the CJK (glyph) branch of `wrapByLimit`
(render_video.js lines 189-195): `cur` accumulates code points and is
flushed when its JavaScript length has reached `limit`. -/
def wrapGlyphAux (limit : Nat) : List Char → List Char → List (List Char)
  | [], cur => if cur = [] then [] else [cur]
  | ch :: rest, cur =>
    if limit ≤ jsLen cur then cur :: wrapGlyphAux limit rest [ch]
    else wrapGlyphAux limit rest (cur ++ [ch])

/-- Accumulator loop computing `t.split(/\s+/).filter(Boolean)`:
maximal runs of non-whitespace code points. -/
def wsTokensAux (acc : List Char) : List Char → List (List Char)
  | [] => if acc = [] then [] else [acc.reverse]
  | c :: cs =>
    if isWsJS c then
      (if acc = [] then wsTokensAux [] cs else acc.reverse :: wsTokensAux [] cs)
    else wsTokensAux (c :: acc) cs

/-- `t.split(/\s+/).filter(Boolean)` from render_video.js line 197. -/
def wsTokens (l : List Char) : List (List Char) :=
  wsTokensAux [] l

/-- The candidate extension of the current line by one token
(render_video.js line 200: `const next = (cur?cur+" ":"")+w`). -/
def nextLine (cur w : List Char) : List Char :=
  if cur = [] then w else cur ++ ' ' :: w

/-- The loop of the word branch of `wrapByLimit`
(render_video.js lines 198-204): greedily append whitespace-delimited
tokens while the JavaScript length of the joined line stays ≤ `limit`. -/
def wrapWordAux (limit : Nat) : List (List Char) → List Char → List (List Char)
  | [], cur => if cur = [] then [] else [cur]
  | w :: ws, cur =>
    if limit < jsLen (nextLine cur w) ∧ cur ≠ [] then
      cur :: wrapWordAux limit ws w
    else wrapWordAux limit ws (nextLine cur w)

/-- `wrapByLimit` from render_video.js lines 186-207 (the textfile-based
variant): normalizes its input, returns `[""]` for an empty normalized
string, otherwise wraps by glyph count (CJK) or by whitespace tokens. -/
def wrapByLimit (nfc : String → String) (text : String) (limit : Nat)
    (isCJK : Bool) : List String :=
  if normalizeWith nfc text = "" then [""]
  else if isCJK then
    (wrapGlyphAux limit (normalizeWith nfc text).data []).map String.mk
  else
    (wrapWordAux limit (wsTokens (normalizeWith nfc text).data) []).map
      String.mk

/-! ### Instruction graph (filter_complex chain) -/

/-- Output-slot labels of filter-chain nodes: the numbered intermediate
labels `[v0]`, `[v1]`, … and the final designated label (`[v]` in the
textfile-based variant). -/
inductive SlotLabel where
  | v : Nat → SlotLabel
  | vout : SlotLabel
deriving DecidableEq, Repr

/-- Operation kinds of filter-chain nodes. -/
inductive NodeKind where
  | background : NodeKind
  | titleText : NodeKind
  | itemText : NodeKind
  | ctaText : NodeKind
deriving DecidableEq, Repr

/-- One node of the compiled instruction graph: operation kind, the
literal-text reference it draws (none for the background node), the
slot it consumes (none for the background node, which reads the `[0:v]`
input stream) and the slot it produces. -/
structure FNode where
  kind : NodeKind
  textRef : Option String
  input : Option SlotLabel
  output : SlotLabel
deriving DecidableEq, Repr

/-- The first chain node (render_video.js line 358):
`[0:v]scale,format,drawbox[v0]` — scales the background, converts the
pixel format and fills the panel rectangle, producing slot `[v0]`. -/
def backgroundNode : FNode :=
  { kind := NodeKind.background, textRef := none, input := none,
    output := SlotLabel.v 0 }

/-- The draw-text nodes emitted by one of the `for` loops of
render_video.js lines 363-382: starting from the running slot counter
`vi`, each line yields one node `[v vi] → [v (vi+1)]`. -/
def drawTextNodes (k : NodeKind) (vi : Nat) : List String → List FNode
  | [] => []
  | l :: ls =>
    { kind := k, textRef := some l, input := some (SlotLabel.v vi),
      output := SlotLabel.v (vi + 1) } :: drawTextNodes k (vi + 1) ls

/-- The final CTA node (render_video.js lines 385-391):
`[v vi]drawtext…[v]`. -/
def ctaNode (vi : Nat) (cta : String) : FNode :=
  { kind := NodeKind.ctaText, textRef := some cta,
    input := some (SlotLabel.v vi), output := SlotLabel.vout }

/-- The full compiled chain for one entry's LineBlock sets
(render_video.js lines 356-393): background node, then one draw-text
node per title line, per item line, and for the CTA line, threaded
through the integer slot counter `vi` exactly as in the source. -/
def buildGraph (titleLines itemLines : List String) (cta : String) :
    List FNode :=
  backgroundNode ::
    (drawTextNodes NodeKind.titleText 0 titleLines ++
      drawTextNodes NodeKind.itemText titleLines.length itemLines ++
      [ctaNode (titleLines.length + itemLines.length) cta])

/-- The slot mapped to the visible output stream by the engine
invocation (render_video.js line 410: `"-map","[v]"`). -/
def mappedVideoLabel : SlotLabel := SlotLabel.vout

/-! ### Per-entry pipeline (textfile-based variant of render_video.js) -/

/-- A content record `{title, items[], cta, tags[]}`; absent YAML fields
are the empty string / empty list (JavaScript `||` treats both the same). -/
structure Entry where
  title : String
  items : List String
  cta : String
  tags : List String

/-- The style parameters that the per-entry pipeline reads from the
merged style document: wrap limits, wrapping mode, bullet glyph with its
trailing separator, and the continuation indent. -/
structure StyleParams where
  tLimit : Nat
  iLimit : Nat
  isCJK : Bool
  bullet : String
  indent : String

/-- English defaults (render_video.js lines 303, 311-312, 338):
`tLimit 28`, `iLimit 36`, word mode, bullet `"• "`, indent three spaces. -/
def enDefaultStyle : StyleParams :=
  { tLimit := 28, iLimit := 36, isCJK := false,
    bullet := "• ", indent := "   " }

/-- Japanese defaults (render_video.js lines 303, 311-312, 338):
`tLimit 16`, `iLimit 18`, glyph mode, bullet `"• "`, ideographic indent. -/
def jaDefaultStyle : StyleParams :=
  { tLimit := 16, iLimit := 18, isCJK := true,
    bullet := "• ", indent := "　" }

/-- Title LineBlocks (render_video.js line 335):
`wrapByLimit(normalize(e.title||""), tLimit, isCJK)` — the title is
normalized by the caller and normalized again inside `wrapByLimit`. -/
def titleLinesOf (nfc : String → String) (st : StyleParams) (e : Entry) :
    List String :=
  wrapByLimit nfc (normalizeWith nfc e.title) st.tLimit st.isCJK

/-- Accepted items (render_video.js line 336):
`(Array.isArray(e.items) ? e.items : []).map(s=>normalize(s)).filter(Boolean).slice(0, 12)`. -/
def rawItemsOf (nfc : String → String) (e : Entry) : List String :=
  ((e.items.map (normalizeWith nfc)).filter (fun s => s ≠ "")).take 12

/-- Bullet/indent formatting of one item's wrapped lines
(render_video.js line 341): the first physical line gets the bullet, the
continuation lines get the indent. -/
def bulletLines (st : StyleParams) : List String → List String
  | [] => []
  | l :: ls => (st.bullet ++ l) :: ls.map (fun s => st.indent ++ s)

/-- Item LineBlocks (render_video.js lines 337-342): wrap each accepted
item and apply bullet/indent formatting, concatenating in order. -/
def itemLinesOf (nfc : String → String) (st : StyleParams) (e : Entry) :
    List String :=
  (rawItemsOf nfc e).flatMap
    (fun it => bulletLines st (wrapByLimit nfc it st.iLimit st.isCJK))

/-- CTA line (render_video.js line 343):
`normalize(e.cta || "Save and try one today")`. -/
def ctaLineOf (nfc : String → String) (e : Entry) : String :=
  normalizeWith nfc (if e.cta = "" then "Save and try one today" else e.cta)

/-- The instruction graph compiled for one entry
(render_video.js lines 335-393). -/
def graphOfEntry (nfc : String → String) (st : StyleParams) (e : Entry) :
    List FNode :=
  buildGraph (titleLinesOf nfc st e) (itemLinesOf nfc st e) (ctaLineOf nfc e)

/-! ### Labelled-chain variant with a per-item node and an 8-item cap
(src/unnamed/part_002; the same item handling appears in the first
variant of render_video.js, line 97). -/

/-- JavaScript `String.prototype.trim`: drop leading and trailing `\s`
code points. -/
def jsTrim (s : String) : String :=
  String.mk (((s.data.dropWhile (fun c => isWsJS c)).reverse.dropWhile
    (fun c => isWsJS c)).reverse)

/-- Accepted items of part_002 line 103:
`(e.items || []).map(s => String(s||"").trim()).filter(Boolean).slice(0,8)`. -/
def itemsAccepted (items : List String) : List String :=
  ((items.map jsTrim).filter (fun s => s ≠ "")).take 8

/-- The compiled chain of part_002 lines 107-116: background `[v0]`, a
single title node `[v0]→[v1]` (the wrapped title is drawn as one
multi-line drawtext), one node per accepted item, and the CTA node
producing the designated output label (`[vout]` there, modelled by the
same `SlotLabel.vout`).  `title` and `cta` stand for the already
prepared literal strings (`escText(wrapTitle(...))`, `escText(e.cta)`). -/
def buildGraphP2 (title : String) (items : List String) (cta : String) :
    List FNode :=
  backgroundNode ::
    { kind := NodeKind.titleText, textRef := some title,
      input := some (SlotLabel.v 0), output := SlotLabel.v 1 } ::
    (drawTextNodes NodeKind.itemText 1 items ++
      [ctaNode (1 + items.length) cta])

/-- The part_002 chain compiled for one entry (part_002 lines 101-117),
with the literal preparation of title and cta abstracted to the raw
fields (it does not affect node structure). -/
def graphOfEntryP2 (e : Entry) : List FNode :=
  buildGraphP2 e.title (itemsAccepted e.items) e.cta

/-! ### Sidecar emission and uploader title -/

/-- Sidecar title (render_video.js line 424):
`` `${normalize(e.title || "Small Wins")}${CH.title_suffix || ""}` `` —
the language suffix is appended unconditionally. -/
def sidecarTitle (nfc : String → String) (titleField suffix : String) :
    String :=
  normalizeWith nfc (if titleField = "" then "Small Wins" else titleField)
    ++ suffix

/-- `startsWithL hay pat`: `pat` is an initial segment of `hay`. -/
def startsWithL : List Char → List Char → Bool
  | _, [] => true
  | [], _ :: _ => false
  | a :: as, b :: bs => a = b && startsWithL as bs

/-- JavaScript `String.prototype.includes`: some tail of `hay` starts
with `pat`. -/
def containsSub : List Char → List Char → Bool
  | [], pat => pat.isEmpty
  | h :: t, pat => startsWithL (h :: t) pat || containsSub t pat

/-- JavaScript `String.prototype.endsWith`. -/
def endsWithL (hay pat : List Char) : Bool :=
  startsWithL hay.reverse pat.reverse

/-- `clamp` from youtube_upload.js line 164:
`(s, n) => (s && s.length > n ? s.slice(0, n) : s)`, with length and
slice measured in UTF-16 code units (`takeU16` keeps whole code points
within the unit budget). -/
def takeU16 : Nat → List Char → List Char
  | _, [] => []
  | budget, c :: cs =>
    if utf16Len c ≤ budget then c :: takeU16 (budget - utf16Len c) cs
    else []

def clamp (s : String) (n : Nat) : String :=
  if n < jsLen s.data then String.mk (takeU16 n s.data) else s

/-- The published title built by the uploader
(youtube_upload.js lines 284-288): the suffix is appended only when the
base title neither ends with nor contains it, then the result is clamped
to 100 UTF-16 units. -/
def uploadTitle (baseTitle suffix : String) : String :=
  let hasSuffix := suffix ≠ "" ∧
    (endsWithL baseTitle.data suffix.data = true ∨
      containsSub baseTitle.data suffix.data = true)
  clamp (if hasSuffix then baseTitle else baseTitle ++ suffix) 100

/-! ### Temporary literal-text files of one render unit -/

/-- Identity of one per-unit temporary text file, mirroring the names
`title_${idx}_${k}.txt`, `item_${idx}_${k}.txt`, `cta_${idx}.txt`
created by `makeTxt` (render_video.js lines 346-353, 364, 375, 386). -/
inductive TmpName where
  | titleTxt : Nat → Nat → TmpName
  | itemTxt : Nat → Nat → TmpName
  | ctaTxt : Nat → TmpName
deriving DecidableEq, Repr

/-- The files created for unit `idx` with `nT` title lines and `nI` item
lines, in creation order (titles, then items, then the CTA). -/
def createdFiles (nT nI idx : Nat) : List TmpName :=
  ((List.range nT).map (TmpName.titleTxt idx)) ++
    ((List.range nI).map (TmpName.itemTxt idx)) ++ [TmpName.ctaTxt idx]

/-- The cleanup loop of render_video.js line 432:
`for (const p of textFiles) { try { await fsp.unlink(p) } catch(_){} }`. -/
def unlinkAll (fsState files : List TmpName) : List TmpName :=
  files.foldl (fun st f => st.erase f) fsState

/-- One unit's render attempt over the temp-file state
(render_video.js lines 346-432): the unit's text files are created, the
engine runs (`ffmpegOk` is its exit outcome), a non-zero exit throws
`"ffmpeg failed"` at line 420 — before the cleanup loop at line 432 —
while a zero exit reaches the cleanup loop, which unlinks every created
file.  Returns the outcome and the resulting temp-file state. -/
def runUnit (fsState : List TmpName) (nT nI idx : Nat) (ffmpegOk : Bool) :
    Except String Unit × List TmpName :=
  let created := createdFiles nT nI idx
  let fs1 := fsState ++ created
  if ffmpegOk then (Except.ok (), unlinkAll fs1 created)
  else (Except.error "ffmpeg failed", fs1)

/-! ### Helper lemmas: UTF-16 lengths -/

theorem one_le_utf16Len (c : Char) : 1 ≤ utf16Len c := by
  unfold utf16Len; split <;> omega

theorem utf16Len_le_two (c : Char) : utf16Len c ≤ 2 := by
  unfold utf16Len; split <;> omega

theorem jsLen_nil : jsLen [] = 0 := rfl

theorem jsLen_append (l₁ l₂ : List Char) :
    jsLen (l₁ ++ l₂) = jsLen l₁ + jsLen l₂ := by
  simp [jsLen]

theorem length_le_jsLen (l : List Char) : l.length ≤ jsLen l := by
  induction l with
  | nil => simp [jsLen]
  | cons c cs ih =>
    have := one_le_utf16Len c
    simp only [jsLen, List.map_cons, List.sum_cons, List.length_cons] at *
    omega

theorem jsLen_eq_length (l : List Char) (h : ∀ c ∈ l, c.toNat < 65536) :
    jsLen l = l.length := by
  induction l with
  | nil => simp [jsLen]
  | cons c cs ih =>
    have hc : utf16Len c = 1 := by
      have := h c (by simp)
      simp [utf16Len, this]
    have := ih (fun d hd => h d (by simp [hd]))
    simp only [jsLen, List.map_cons, List.sum_cons, List.length_cons] at *
    omega

/-! ### Helper lemmas: the glyph-wrapping loop -/

theorem wrapGlyphAux_ne_nil (limit : Nat) (rest cur : List Char)
    (h : cur ≠ []) : wrapGlyphAux limit rest cur ≠ [] := by
  induction rest generalizing cur with
  | nil => simp [wrapGlyphAux, h]
  | cons ch rs ih =>
    by_cases hc : limit ≤ jsLen cur
    · simp [wrapGlyphAux, hc]
    · simpa [wrapGlyphAux, hc] using ih (cur ++ [ch]) (by simp)

theorem wrapGlyphAux_dropLast_exact (limit : Nat) (hpos : 0 < limit)
    (rest cur : List Char) (hrest : ∀ c ∈ rest, c.toNat < 65536)
    (hcur : ∀ c ∈ cur, c.toNat < 65536) (hlen : cur.length ≤ limit) :
    ∀ l ∈ (wrapGlyphAux limit rest cur).dropLast, l.length = limit := by
  induction rest generalizing cur with
  | nil =>
    intro l hl
    by_cases h : cur = [] <;> simp [wrapGlyphAux, h] at hl
  | cons ch rs ih =>
    intro l hl
    by_cases hc : limit ≤ jsLen cur
    · have hje : jsLen cur = cur.length := jsLen_eq_length cur hcur
      have hexact : cur.length = limit := by omega
      rw [wrapGlyphAux, if_pos hc] at hl
      have htail : wrapGlyphAux limit rs [ch] ≠ [] :=
        wrapGlyphAux_ne_nil limit rs [ch] (by simp)
      rcases htail2 : wrapGlyphAux limit rs [ch] with _ | ⟨x, xs⟩
      · exact absurd htail2 htail
      · rw [htail2, List.dropLast_cons₂] at hl
        rcases List.mem_cons.mp hl with hl | hl
        · rw [hl]; omega
        · rw [← htail2] at hl
          exact ih [ch] (fun d hd => hrest d (by simp [List.mem_cons_of_mem, hd]))
            (fun d hd => by
              simp at hd
              exact hd ▸ hrest ch (by simp))
            (by simpa using hpos) l hl
    · rw [wrapGlyphAux, if_neg hc] at hl
      have hje : jsLen cur = cur.length := jsLen_eq_length cur hcur
      exact ih (cur ++ [ch])
        (fun d hd => hrest d (List.mem_cons_of_mem ch hd))
        (fun d hd => by
          rcases List.mem_append.mp hd with h1 | h1
          · exact hcur d h1
          · simp at h1
            exact h1 ▸ hrest ch (by simp))
        (by simp; omega) l hl

/-! ### Claim C4 -/

/-- Claim C4 counterexample: in glyph mode the loop cuts on the UTF-16
length `cur.length`, while `for…of` iterates code points, so an input of
supplementary-plane code points refutes "every line except possibly the
last has exactly L code points": wrapping three U+1F600 at limit 2
yields three one-code-point lines. -/
theorem c4_glyph_counterexample :
    ¬ ∀ l ∈ (wrapByLimit id ("😀😀😀") 2 true).dropLast, l.length = 2 := by
  decide

/-- Claim C4 (amended): in glyph mode, lines are cut by UTF-16 code-unit
count; when every code point of the normalized input lies in the Basic
Multilingual Plane (one code unit each), every line except possibly the
last has exactly `limit` code points. -/
theorem c4_glyph_exact_on_bmp (nfc : String → String) (text : String)
    (limit : Nat) (hpos : 0 < limit)
    (hbmp : ∀ c ∈ (normalizeWith nfc text).data, c.toNat < 65536) :
    ∀ l ∈ (wrapByLimit nfc text limit true).dropLast, l.length = limit := by
  intro l hl
  by_cases he : normalizeWith nfc text = ""
  · simp [wrapByLimit, he] at hl
  · rw [wrapByLimit, if_neg he, if_pos rfl, ← List.map_dropLast] at hl
    rcases List.mem_map.mp hl with ⟨lc, hlc, rfl⟩
    exact wrapGlyphAux_dropLast_exact limit hpos
      (normalizeWith nfc text).data [] hbmp (by simp) (by simp) lc hlc

/-- Witness for `c4_glyph_exact_on_bmp` at a concrete BMP input. -/
theorem c4_glyph_exact_on_bmp_witness :
    0 < 2 ∧ (∀ c ∈ (normalizeWith id ("abcde")).data, c.toNat < 65536) ∧
      ∀ l ∈ (wrapByLimit id ("abcde") 2 true).dropLast, l.length = 2 :=
  ⟨by decide, by decide, c4_glyph_exact_on_bmp id ("abcde") 2 (by decide)
    (by decide)⟩

/-! ### Helper lemmas: whitespace tokens -/

theorem wsTokensAux_good (l : List Char) :
    ∀ acc : List Char, (∀ c ∈ acc, isWsJS c = false) →
    ∀ tok ∈ wsTokensAux acc l, tok ≠ [] ∧ ∀ c ∈ tok, isWsJS c = false := by
  induction l with
  | nil =>
    intro acc hacc tok htok
    by_cases h : acc = []
    · simp [wsTokensAux, h] at htok
    · rw [wsTokensAux, if_neg h] at htok
      simp only [List.mem_singleton] at htok
      subst htok
      exact ⟨by simpa using h, fun c hc => hacc c (List.mem_reverse.mp hc)⟩
  | cons c cs ih =>
    intro acc hacc tok htok
    by_cases hw : isWsJS c
    · rw [wsTokensAux, if_pos hw] at htok
      by_cases h : acc = []
      · rw [if_pos h] at htok
        exact ih [] (by simp) tok htok
      · rw [if_neg h] at htok
        rcases List.mem_cons.mp htok with htok | htok
        · subst htok
          exact ⟨by simpa using h, fun d hd => hacc d (List.mem_reverse.mp hd)⟩
        · exact ih [] (by simp) tok htok
    · rw [wsTokensAux, if_neg hw] at htok
      refine ih (c :: acc) ?_ tok htok
      intro d hd
      rcases List.mem_cons.mp hd with hd | hd
      · subst hd; exact Bool.not_eq_true _ ▸ by simpa using hw
      · exact hacc d hd

theorem wsTokens_good (l : List Char) :
    ∀ tok ∈ wsTokens l, tok ≠ [] ∧ ∀ c ∈ tok, isWsJS c = false :=
  wsTokensAux_good l [] (by simp)

/-! ### Helper lemmas: the word-wrapping loop -/

theorem wrapWordAux_bound (limit : Nat) (toks : List (List Char)) :
    ∀ (ws : List (List Char)) (cur : List Char),
    (∀ w ∈ ws, w ∈ toks) →
    (cur = [] ∨ jsLen cur ≤ limit ∨ cur ∈ toks) →
    ∀ l ∈ wrapWordAux limit ws cur, jsLen l ≤ limit ∨ l ∈ toks := by
  intro ws
  induction ws with
  | nil =>
    intro cur hws hcur l hl
    by_cases h : cur = []
    · simp [wrapWordAux, h] at hl
    · rw [wrapWordAux, if_neg h] at hl
      simp only [List.mem_singleton] at hl
      subst hl
      rcases hcur with h' | h' | h'
      · exact absurd h' h
      · exact Or.inl h'
      · exact Or.inr h'
  | cons w ws' ih =>
    intro cur hws hcur l hl
    by_cases hc : limit < jsLen (nextLine cur w) ∧ cur ≠ []
    · rw [wrapWordAux, if_pos hc] at hl
      rcases List.mem_cons.mp hl with hl | hl
      · subst hl
        rcases hcur with h' | h' | h'
        · exact absurd h' hc.2
        · exact Or.inl h'
        · exact Or.inr h'
      · exact ih w (fun x hx => hws x (List.mem_cons_of_mem _ hx))
          (Or.inr (Or.inr (hws w (by simp)))) l hl
    · rw [wrapWordAux, if_neg hc] at hl
      refine ih (nextLine cur w)
        (fun x hx => hws x (List.mem_cons_of_mem _ hx)) ?_ l hl
      by_cases h : cur = []
      · exact Or.inr (Or.inr (by simpa [nextLine, h] using hws w (by simp)))
      · have : ¬ limit < jsLen (nextLine cur w) := fun hlt => hc ⟨hlt, h⟩
        exact Or.inr (Or.inl (by omega))

/-- Join a token list with single spaces, as the word-wrapping loop
builds its lines. -/
def joinSp : List (List Char) → List Char
  | [] => []
  | [t] => t
  | t :: t' :: ts => t ++ ' ' :: joinSp (t' :: ts)

theorem joinSp_concat (ts : List (List Char)) (t w : List Char) :
    joinSp ((t :: ts) ++ [w]) = joinSp (t :: ts) ++ ' ' :: w := by
  induction ts generalizing t with
  | nil => rfl
  | cons t' ts' ih =>
    show joinSp (t :: t' :: (ts' ++ [w])) = _
    rw [joinSp]
    show _ = (t ++ ' ' :: joinSp (t' :: ts')) ++ ' ' :: w
    rw [show t' :: (ts' ++ [w]) = (t' :: ts') ++ [w] from rfl, ih t',
      List.append_assoc]
    rfl

theorem joinSp_ne_nil (ts : List (List Char)) (hne : ts ≠ [])
    (htk : ∀ tk ∈ ts, tk ≠ []) : joinSp ts ≠ [] := by
  cases ts with
  | nil => exact absurd rfl hne
  | cons t ts' =>
    cases ts' with
    | nil => exact htk t (by simp)
    | cons t' ts'' =>
      rw [joinSp]
      exact List.append_ne_nil_of_left_ne_nil (htk t (by simp)) _

theorem mem_joinSp (ts : List (List Char)) (c : Char) (hc : c ∈ joinSp ts) :
    c = ' ' ∨ ∃ tk, tk ∈ ts ∧ c ∈ tk := by
  induction ts with
  | nil => simp [joinSp] at hc
  | cons t ts' ih =>
    cases ts' with
    | nil => exact Or.inr ⟨t, by simp, by simpa [joinSp] using hc⟩
    | cons t' ts'' =>
      rw [joinSp] at hc
      rcases List.mem_append.mp hc with h | h
      · exact Or.inr ⟨t, by simp, h⟩
      · rcases List.mem_cons.mp h with h | h
        · exact Or.inl h
        · rcases ih h with h | ⟨tk, htk, hc'⟩
          · exact Or.inl h
          · exact Or.inr ⟨tk, by simp [htk], hc'⟩

/-- A line the word loop can emit: a single-space join of nonempty,
whitespace-free tokens. -/
def GoodLine (l : List Char) : Prop :=
  ∃ ts : List (List Char), ts ≠ [] ∧
    (∀ tk ∈ ts, tk ≠ [] ∧ ∀ c ∈ tk, isWsJS c = false) ∧ l = joinSp ts

theorem wrapWordAux_good (limit : Nat) :
    ∀ (ws : List (List Char)) (cur : List Char),
    (∀ w ∈ ws, w ≠ [] ∧ ∀ c ∈ w, isWsJS c = false) →
    (cur = [] ∨ GoodLine cur) →
    ∀ l ∈ wrapWordAux limit ws cur, GoodLine l := by
  intro ws
  induction ws with
  | nil =>
    intro cur hws hcur l hl
    by_cases h : cur = []
    · simp [wrapWordAux, h] at hl
    · rw [wrapWordAux, if_neg h] at hl
      simp only [List.mem_singleton] at hl
      subst hl
      exact hcur.resolve_left h
  | cons w ws' ih =>
    intro cur hws hcur l hl
    have hw : w ≠ [] ∧ ∀ c ∈ w, isWsJS c = false := hws w (by simp)
    have hwgood : GoodLine w :=
      ⟨[w], by simp, fun tk htk => by
        simp only [List.mem_singleton] at htk
        exact htk ▸ hw, rfl⟩
    by_cases hc : limit < jsLen (nextLine cur w) ∧ cur ≠ []
    · rw [wrapWordAux, if_pos hc] at hl
      rcases List.mem_cons.mp hl with hl | hl
      · subst hl
        exact hcur.resolve_left hc.2
      · exact ih w (fun x hx => hws x (List.mem_cons_of_mem _ hx))
          (Or.inr hwgood) l hl
    · rw [wrapWordAux, if_neg hc] at hl
      refine ih (nextLine cur w)
        (fun x hx => hws x (List.mem_cons_of_mem _ hx)) (Or.inr ?_) l hl
      by_cases h : cur = []
      · simpa [nextLine, h] using hwgood
      · rcases hcur.resolve_left h with ⟨ts, htsne, htstk, hcur'⟩
        rcases ts with _ | ⟨t, ts'⟩
        · exact absurd rfl htsne
        · refine ⟨(t :: ts') ++ [w], by simp, ?_, ?_⟩
          · intro tk htk
            rcases List.mem_append.mp htk with h1 | h1
            · exact htstk tk h1
            · simp only [List.mem_singleton] at h1
              exact h1 ▸ hw
          · rw [joinSp_concat, nextLine, if_neg h, hcur']

theorem goodLine_ws_chars {l : List Char} (h : GoodLine l) :
    ∀ c ∈ l, isWsJS c = true → c = ' ' := by
  rcases h with ⟨ts, -, htk, rfl⟩
  intro c hc hws
  rcases mem_joinSp ts c hc with h | ⟨tk, htk', hc'⟩
  · exact h
  · exact absurd hws (by simp [(htk tk htk').2 c hc'])

theorem goodLine_head {l : List Char} (h : GoodLine l) :
    ∀ c, l.head? = some c → isWsJS c = false := by
  rcases h with ⟨ts, hne, htk, rfl⟩
  intro c hc
  cases ts with
  | nil => exact absurd rfl hne
  | cons t ts' =>
    cases ts' with
    | nil =>
      exact (htk t (by simp)).2 c (List.mem_of_mem_head? (by simp [joinSp] at hc ⊢; exact hc))
    | cons t' ts'' =>
      rcases ht : t with _ | ⟨c₀, t₀⟩
      · exact absurd ht (htk t (by simp)).1
      · rw [joinSp, ht, List.cons_append, List.head?_cons] at hc
        have hcc : c₀ = c := by injection hc
        subst hcc
        exact (htk t (by simp)).2 c₀ (by simp [ht])

theorem joinSp_getLast (ts : List (List Char))
    (htk : ∀ tk ∈ ts, tk ≠ [] ∧ ∀ c ∈ tk, isWsJS c = false) :
    ∀ c, (joinSp ts).getLast? = some c → isWsJS c = false := by
  induction ts with
  | nil => intro c hc; simp [joinSp] at hc
  | cons t ts' ih =>
    intro c hc
    cases ts' with
    | nil =>
      exact (htk t (by simp)).2 c
        (List.mem_of_mem_getLast? (by simp [joinSp] at hc ⊢; exact hc))
    | cons t' ts'' =>
      rw [joinSp, List.getLast?_append_cons] at hc
      have hJne : joinSp (t' :: ts'') ≠ [] :=
        joinSp_ne_nil _ (by simp)
          (fun tk h => (htk tk (List.mem_cons_of_mem _ h)).1)
      rcases hJ : joinSp (t' :: ts'') with _ | ⟨x, xs⟩
      · exact absurd hJ hJne
      · rw [hJ, List.getLast?_cons_cons, ← hJ] at hc
        exact ih (fun tk h => htk tk (List.mem_cons_of_mem _ h)) c hc

theorem goodLine_getLast {l : List Char} (h : GoodLine l) :
    ∀ c, l.getLast? = some c → isWsJS c = false := by
  rcases h with ⟨ts, -, htk, rfl⟩
  exact joinSp_getLast ts htk

/-! ### Claims C5 and C10 -/

/-- Claim C5 (confirmed): in word mode no returned line exceeds `limit`
characters, except a line consisting of a single whitespace-delimited
token — an intact member of the normalized input's token list — placed
alone. -/
theorem c5_word_no_overflow (nfc : String → String) (text : String)
    (limit : Nat) (hpos : 0 < limit) :
    ∀ l ∈ wrapByLimit nfc text limit false,
      l.length ≤ limit ∨
        (l.data ∈ wsTokens (normalizeWith nfc text).data ∧
          ∀ c ∈ l.data, isWsJS c = false) := by
  intro l hl
  by_cases he : normalizeWith nfc text = ""
  · rw [wrapByLimit, if_pos he] at hl
    simp only [List.mem_singleton] at hl
    subst hl
    exact Or.inl (by simp)
  · rw [wrapByLimit, if_neg he, if_neg Bool.false_ne_true] at hl
    rcases List.mem_map.mp hl with ⟨lc, hlc, rfl⟩
    rcases wrapWordAux_bound limit (wsTokens (normalizeWith nfc text).data)
        (wsTokens (normalizeWith nfc text).data) [] (fun w hw => hw)
        (Or.inl rfl) lc hlc with h | h
    · exact Or.inl (le_trans (length_le_jsLen lc) h)
    · exact Or.inr ⟨h, (wsTokens_good _ lc h).2⟩

/-- Witness for `c5_word_no_overflow`: one over-long token is placed
alone, intact. -/
theorem c5_word_no_overflow_witness :
    0 < 3 ∧ (("abcdefgh" : String).length ≤ 3 ∨
      (("abcdefgh" : String).data ∈
          wsTokens (normalizeWith id ("abcdefgh")).data ∧
        ∀ c ∈ ("abcdefgh" : String).data, isWsJS c = false)) :=
  ⟨by decide, c5_word_no_overflow id ("abcdefgh") 3 (by decide)
    ("abcdefgh") (by decide)⟩

/-- Claim C10 (confirmed): word-mode lines contain no whitespace other
than single plain spaces: any whitespace code point in a returned line
is a space (in particular no newline survives), lines neither start nor
end with whitespace, and every line is a single-space join of nonempty
whitespace-free tokens. -/
theorem c10_word_whitespace_shape (nfc : String → String) (text : String)
    (limit : Nat) :
    ∀ l ∈ wrapByLimit nfc text limit false,
      (∀ c ∈ l.data, isWsJS c = true → c = ' ') ∧
      (∀ c, l.data.head? = some c → isWsJS c = false) ∧
      (∀ c, l.data.getLast? = some c → isWsJS c = false) ∧
      ∃ ts : List (List Char),
        (∀ tk ∈ ts, tk ≠ [] ∧ ∀ c ∈ tk, isWsJS c = false) ∧
        l.data = joinSp ts := by
  intro l hl
  by_cases he : normalizeWith nfc text = ""
  · rw [wrapByLimit, if_pos he] at hl
    simp only [List.mem_singleton] at hl
    subst hl
    refine ⟨by simp, by simp, by simp, [], by simp, rfl⟩
  · rw [wrapByLimit, if_neg he, if_neg Bool.false_ne_true] at hl
    rcases List.mem_map.mp hl with ⟨lc, hlc, rfl⟩
    have hgood : GoodLine lc :=
      wrapWordAux_good limit (wsTokens (normalizeWith nfc text).data) []
        (fun w hw => wsTokens_good _ w hw) (Or.inl rfl) lc hlc
    refine ⟨goodLine_ws_chars hgood, goodLine_head hgood,
      goodLine_getLast hgood, ?_⟩
    rcases hgood with ⟨ts, -, htk, hts⟩
    exact ⟨ts, htk, hts⟩

/-! ### Helper lemmas: the normalizer -/

theorem quoteChar_eval (c : Char) :
    quoteChar c = '"' ∨ quoteChar c = '\'' ∨ quoteChar c = ' ' ∨
      quoteChar c = c := by
  unfold quoteChar
  split_ifs <;> simp

theorem quoteChar_idem (c : Char) :
    quoteChar (quoteChar c) = quoteChar c := by
  rcases quoteChar_eval c with h | h | h | h
  · rw [h]; decide
  · rw [h]; decide
  · rw [h]; decide
  · rw [h]; exact h

theorem preNorm_cons (c : Char) (cs : List Char) :
    preNorm (c :: cs) =
      if isStrippedControl (quoteChar c) then preNorm cs
      else quoteChar c :: preNorm cs := by
  simp only [preNorm, toASCIIQuotes, stripControls, List.map_cons,
    List.filter_cons]
  by_cases h : isStrippedControl (quoteChar c) <;> simp [h]

theorem preNorm_idem (l : List Char) : preNorm (preNorm l) = preNorm l := by
  induction l with
  | nil => rfl
  | cons c cs ih =>
    rw [preNorm_cons]
    by_cases h : isStrippedControl (quoteChar c)
    · rw [if_pos h, ih]
    · rw [if_neg h, preNorm_cons, quoteChar_idem, if_neg h, ih]

theorem stripBOM_of_head_ne (l : List Char)
    (h : l.head? ≠ some bomChar) : stripBOM l = l := by
  cases l with
  | nil => rfl
  | cons c cs =>
    rw [stripBOM]
    rw [if_neg]
    intro hc
    exact h (by simp [hc])

/-! ### Helper lemmas: the instruction-graph chain -/

/-- The chaining relation: node `b` consumes exactly the slot node `a`
produces. -/
def consumesPrev (a b : FNode) : Prop := b.input = some a.output

/-- Uniform view of a run of draw-text nodes: kind/text pairs drawn from
the running slot counter `vi`. -/
def drawSeq (vi : Nat) : List (NodeKind × String) → List FNode
  | [] => []
  | p :: ps =>
    { kind := p.1, textRef := some p.2, input := some (SlotLabel.v vi),
      output := SlotLabel.v (vi + 1) } :: drawSeq (vi + 1) ps

theorem drawTextNodes_eq_drawSeq (k : NodeKind) (vi : Nat)
    (ls : List String) :
    drawTextNodes k vi ls = drawSeq vi (ls.map (fun s => (k, s))) := by
  induction ls generalizing vi with
  | nil => rfl
  | cons l ls ih => simp [drawTextNodes, drawSeq, ih]

theorem drawSeq_append (vi : Nat) (ps qs : List (NodeKind × String)) :
    drawSeq vi (ps ++ qs) = drawSeq vi ps ++ drawSeq (vi + ps.length) qs := by
  induction ps generalizing vi with
  | nil => simp [drawSeq]
  | cons p ps ih =>
    simp only [List.cons_append, drawSeq, List.length_cons, List.append_eq, ih]
    rw [show vi + (ps.length + 1) = vi + 1 + ps.length from by omega]

theorem drawSeq_length (vi : Nat) (ps : List (NodeKind × String)) :
    (drawSeq vi ps).length = ps.length := by
  induction ps generalizing vi with
  | nil => rfl
  | cons p ps ih => simp [drawSeq, ih]

theorem drawSeq_map_output (vi : Nat) (ps : List (NodeKind × String)) :
    (drawSeq vi ps).map FNode.output =
      (List.range' (vi + 1) ps.length).map SlotLabel.v := by
  induction ps generalizing vi with
  | nil => simp [drawSeq]
  | cons p ps ih => simp [drawSeq, List.range'_succ, ih]

theorem drawSeq_filterMap_input (vi : Nat) (ps : List (NodeKind × String)) :
    (drawSeq vi ps).filterMap FNode.input =
      (List.range' vi ps.length).map SlotLabel.v := by
  induction ps generalizing vi with
  | nil => simp [drawSeq]
  | cons p ps ih => simp [drawSeq, List.filterMap_cons, List.range'_succ, ih]

theorem drawSeq_map_kind (vi : Nat) (ps : List (NodeKind × String)) :
    (drawSeq vi ps).map FNode.kind = ps.map Prod.fst := by
  induction ps generalizing vi with
  | nil => rfl
  | cons p ps ih => simp [drawSeq, ih]

theorem drawSeq_chain (vi : Nat) (ps : List (NodeKind × String)) :
    List.Chain' consumesPrev (drawSeq vi ps) := by
  induction ps generalizing vi with
  | nil => simp [drawSeq]
  | cons p ps ih =>
    cases ps with
    | nil => simp [drawSeq]
    | cons q qs =>
      rw [drawSeq, drawSeq, List.chain'_cons]
      exact ⟨rfl, by rw [← drawSeq] ; exact ih (vi + 1)⟩

theorem drawSeq_getLast_output (vi : Nat) (ps : List (NodeKind × String))
    (h : ps ≠ []) :
    ((drawSeq vi ps).getLast?).map FNode.output =
      some (SlotLabel.v (vi + ps.length)) := by
  induction ps generalizing vi with
  | nil => exact absurd rfl h
  | cons p ps ih =>
    cases ps with
    | nil => simp [drawSeq]
    | cons q qs =>
      have h2 : drawSeq vi (p :: q :: qs) =
          { kind := p.1, textRef := some p.2,
            input := some (SlotLabel.v vi),
            output := SlotLabel.v (vi + 1) } ::
            drawSeq (vi + 1) (q :: qs) := rfl
      rw [h2]
      have h4 := ih (vi + 1) (by simp)
      rcases h3 : drawSeq (vi + 1) (q :: qs) with _ | ⟨x, xs⟩
      · exact absurd h3 (by simp [drawSeq])
      · rw [h3] at h4
        rw [List.getLast?_cons_cons, h4]
        simp only [Option.some.injEq, SlotLabel.v.injEq, List.length_cons]
        omega

/-- Splitting `List.range'` over an added length. -/
theorem range'_add_len (s a b : Nat) :
    List.range' s (a + b) = List.range' s a ++ List.range' (s + a) b := by
  induction a generalizing s with
  | zero => simp
  | succ a ih =>
    rw [show a + 1 + b = (a + b) + 1 from by omega, List.range'_succ,
      List.range'_succ, ih (s + 1), List.cons_append,
      show s + 1 + a = s + (a + 1) from by omega]

/-- The canonical shape of a compiled chain: background node, a run of
draw-text nodes, and the CTA node. -/
theorem graphShape_output (ps : List (NodeKind × String)) (cta : String) :
    ((backgroundNode :: (drawSeq 0 ps ++ [ctaNode ps.length cta])).map
        FNode.output) =
      (List.range (ps.length + 1)).map SlotLabel.v ++ [SlotLabel.vout] := by
  rw [List.range_eq_range', List.range'_succ]
  simp [backgroundNode, ctaNode, drawSeq_map_output]

theorem graphShape_chain (ps : List (NodeKind × String)) (cta : String) :
    List.Chain' consumesPrev
      (backgroundNode :: (drawSeq 0 ps ++ [ctaNode ps.length cta])) := by
  cases ps with
  | nil =>
    rw [List.chain'_cons']
    refine ⟨?_, by simp [drawSeq, List.chain'_singleton]⟩
    intro y hy
    simp only [drawSeq, List.nil_append, List.head?_cons,
      Option.mem_def, Option.some.injEq] at hy
    subst hy
    rfl
  | cons p ps' =>
    rw [List.chain'_cons']
    constructor
    · intro y hy
      simp only [drawSeq, List.cons_append, List.head?_cons,
        Option.mem_def, Option.some.injEq] at hy
      subst hy
      rfl
    · rw [List.chain'_append]
      refine ⟨drawSeq_chain 0 (p :: ps'), by simp [List.chain'_singleton], ?_⟩
      intro x hx y hy
      simp only [List.head?_cons, Option.mem_def, Option.some.injEq] at hy
      subst hy
      have hlast := drawSeq_getLast_output 0 (p :: ps') (by simp)
      rw [Option.mem_def] at hx
      rw [hx] at hlast
      simp only [Option.map_some', Option.some.injEq] at hlast
      show some (SlotLabel.v ((p :: ps').length)) = some x.output
      rw [hlast]
      simp

theorem graphShape_input (ps : List (NodeKind × String)) (cta : String) :
    ((backgroundNode :: (drawSeq 0 ps ++ [ctaNode ps.length cta])).filterMap
        FNode.input) =
      (List.range (ps.length + 1)).map SlotLabel.v := by
  rw [List.range_eq_range', range'_add_len 0 ps.length 1]
  simp [backgroundNode, ctaNode, List.filterMap_cons, drawSeq_filterMap_input,
    List.range'_succ]

theorem graphShape_nodup (ps : List (NodeKind × String)) (cta : String) :
    ((backgroundNode :: (drawSeq 0 ps ++ [ctaNode ps.length cta])).map
        FNode.output).Nodup := by
  rw [graphShape_output]
  rw [List.nodup_append]
  refine ⟨List.Nodup.map ?_ (List.nodup_range _), by simp, ?_⟩
  · intro a b hab
    injection hab
  · intro a ha
    rcases List.mem_map.mp ha with ⟨n, -, rfl⟩
    simp

theorem graphShape_getLast (ps : List (NodeKind × String)) (cta : String) :
    ((backgroundNode ::
        (drawSeq 0 ps ++ [ctaNode ps.length cta])).getLast?).map
      FNode.output = some SlotLabel.vout := by
  rw [show (backgroundNode :: (drawSeq 0 ps ++ [ctaNode ps.length cta])) =
    (backgroundNode :: drawSeq 0 ps) ++ [ctaNode ps.length cta] from by simp]
  rw [List.getLast?_concat]
  rfl

/-- `buildGraph` seen through the uniform node run. -/
theorem buildGraph_eq_shape (tls ils : List String) (cta : String) :
    buildGraph tls ils cta =
      backgroundNode ::
        (drawSeq 0 (tls.map (fun s => (NodeKind.titleText, s)) ++
            ils.map (fun s => (NodeKind.itemText, s))) ++
          [ctaNode (tls.map (fun s => (NodeKind.titleText, s)) ++
              ils.map (fun s => (NodeKind.itemText, s))).length cta]) := by
  rw [buildGraph, drawTextNodes_eq_drawSeq, drawTextNodes_eq_drawSeq,
    drawSeq_append]
  simp only [List.length_map, List.length_append, Nat.zero_add]

/-! ### Claims C1 and C8 -/

/-- Claim C1 (confirmed): for every LineBlock set the compiled chain's
slot labels are `v0, v1, v2, …` in strict monotonic order with the
final node producing the designated output label; every node after the
background node consumes exactly its immediate predecessor's output
slot; the consumed slots are exactly the produced slots except the last
— each consumed once, none orphaned — and no label is duplicated; the
final node's output is the slot mapped to the visible output stream. -/
theorem c1_graph_single_chain (tls ils : List String) (cta : String) :
    (buildGraph tls ils cta).map FNode.output =
        (List.range (tls.length + ils.length + 1)).map SlotLabel.v ++
          [SlotLabel.vout] ∧
      List.Chain' consumesPrev (buildGraph tls ils cta) ∧
      (buildGraph tls ils cta).head? = some backgroundNode ∧
      (buildGraph tls ils cta).filterMap FNode.input =
        ((buildGraph tls ils cta).map FNode.output).dropLast ∧
      ((buildGraph tls ils cta).getLast?).map FNode.output =
        some mappedVideoLabel ∧
      ((buildGraph tls ils cta).map FNode.output).Nodup := by
  have hlen : (tls.map (fun s => (NodeKind.titleText, s)) ++
      ils.map (fun s => (NodeKind.itemText, s))).length =
      tls.length + ils.length := by simp
  refine ⟨?_, ?_, ?_, ?_, ?_, ?_⟩
  · rw [buildGraph_eq_shape, graphShape_output, hlen]
  · rw [buildGraph_eq_shape]
    exact graphShape_chain _ _
  · rw [buildGraph_eq_shape]
    rfl
  · rw [buildGraph_eq_shape, graphShape_input, graphShape_output,
      List.dropLast_concat]
  · rw [buildGraph_eq_shape, graphShape_getLast]
    rfl
  · rw [buildGraph_eq_shape]
    exact graphShape_nodup _ _

/-- Claim C8 (confirmed): an entry with an empty items list still
compiles, with no error possible: the node kinds are exactly the
background node, one node per title line, and the CTA node — no item
nodes — and the chain property still holds. -/
theorem c8_empty_items_graph (nfc : String → String) (st : StyleParams)
    (e : Entry) (h : e.items = []) :
    (graphOfEntry nfc st e).map FNode.kind =
        NodeKind.background ::
          (List.replicate (titleLinesOf nfc st e).length
              NodeKind.titleText ++ [NodeKind.ctaText]) ∧
      List.Chain' consumesPrev (graphOfEntry nfc st e) ∧
      (graphOfEntry nfc st e).length =
        2 + (titleLinesOf nfc st e).length := by
  have hitems : itemLinesOf nfc st e = [] := by
    simp [itemLinesOf, rawItemsOf, h]
  refine ⟨?_, ?_, ?_⟩
  · rw [graphOfEntry, hitems, buildGraph_eq_shape]
    simp [drawSeq_map_kind, ctaNode, backgroundNode, List.map_map,
      Function.comp, List.map_const']
  · rw [graphOfEntry, hitems, buildGraph_eq_shape]
    exact graphShape_chain _ _
  · rw [graphOfEntry, hitems, buildGraph_eq_shape]
    simp [drawSeq_length]
    omega

/-- Witness for `c8_empty_items_graph` at a concrete entry with
`items = []`. -/
theorem c8_empty_items_graph_witness :
    (graphOfEntry id enDefaultStyle
          { title := ("Tips"), items := [], cta := ("Go"), tags := [] }).map
        FNode.kind =
        NodeKind.background ::
          (List.replicate
              (titleLinesOf id enDefaultStyle
                  { title := ("Tips"), items := [], cta := ("Go"),
                    tags := [] }).length
              NodeKind.titleText ++ [NodeKind.ctaText]) ∧
      List.Chain' consumesPrev
        (graphOfEntry id enDefaultStyle
          { title := ("Tips"), items := [], cta := ("Go"), tags := [] }) ∧
      (graphOfEntry id enDefaultStyle
          { title := ("Tips"), items := [], cta := ("Go"),
            tags := [] }).length =
        2 + (titleLinesOf id enDefaultStyle
            { title := ("Tips"), items := [], cta := ("Go"),
              tags := [] }).length :=
  c8_empty_items_graph id enDefaultStyle
    { title := ("Tips"), items := [], cta := ("Go"), tags := [] } rfl

/-! ### Helper lemmas: graph size -/

theorem buildGraph_length (tls ils : List String) (cta : String) :
    (buildGraph tls ils cta).length = 2 + tls.length + ils.length := by
  rw [buildGraph_eq_shape]
  simp [drawSeq_length]
  omega

theorem wrapGlyphAux_flatten (limit : Nat) (rest : List Char) :
    ∀ cur : List Char, (wrapGlyphAux limit rest cur).flatten = cur ++ rest := by
  induction rest with
  | nil =>
    intro cur
    by_cases h : cur = [] <;> simp [wrapGlyphAux, h]
  | cons ch rs ih =>
    intro cur
    by_cases hc : limit ≤ jsLen cur
    · rw [wrapGlyphAux, if_pos hc, List.flatten_cons, ih [ch]]
      simp
    · rw [wrapGlyphAux, if_neg hc, ih (cur ++ [ch])]
      simp

theorem wrapGlyphAux_line_le (limit : Nat) (hpos : 1 ≤ limit)
    (rest : List Char) :
    ∀ cur : List Char, jsLen cur ≤ limit + 1 →
      ∀ l ∈ wrapGlyphAux limit rest cur, jsLen l ≤ limit + 1 := by
  induction rest with
  | nil =>
    intro cur hcur l hl
    by_cases h : cur = []
    · simp [wrapGlyphAux, h] at hl
    · rw [wrapGlyphAux, if_neg h] at hl
      simp only [List.mem_singleton] at hl
      exact hl ▸ hcur
  | cons ch rs ih =>
    intro cur hcur l hl
    by_cases hc : limit ≤ jsLen cur
    · rw [wrapGlyphAux, if_pos hc] at hl
      rcases List.mem_cons.mp hl with hl | hl
      · exact hl ▸ hcur
      · refine ih [ch] ?_ l hl
        have := utf16Len_le_two ch
        simp only [jsLen, List.map_cons, List.map_nil, List.sum_cons,
          List.sum_nil]
        omega
    · rw [wrapGlyphAux, if_neg hc] at hl
      refine ih (cur ++ [ch]) ?_ l hl
      have := utf16Len_le_two ch
      rw [jsLen_append]
      simp only [jsLen, List.map_cons, List.map_nil, List.sum_cons,
        List.sum_nil] at *
      omega

theorem jsLen_flatten (L : List (List Char)) :
    jsLen L.flatten = (L.map jsLen).sum := by
  induction L with
  | nil => simp [jsLen]
  | cons l ls ih => simp [List.flatten_cons, jsLen_append, ih]

theorem sum_le_mul_of_forall_le (l : List Nat) (m : Nat)
    (h : ∀ x ∈ l, x ≤ m) : l.sum ≤ l.length * m := by
  induction l with
  | nil => simp
  | cons x xs ih =>
    have h1 := h x (by simp)
    have h2 := ih (fun y hy => h y (List.mem_cons_of_mem _ hy))
    simp only [List.sum_cons, List.length_cons]
    calc x + xs.sum ≤ m + xs.length * m := by omega
    _ = (xs.length + 1) * m := by ring

theorem jsLen_replicate_a (n : Nat) :
    jsLen (List.replicate n 'a') = n := by
  induction n with
  | zero => simp [jsLen]
  | succ n ih =>
    rw [List.replicate_succ]
    simp only [jsLen, List.map_cons, List.sum_cons] at *
    have h1 : utf16Len 'a' = 1 := by decide
    omega

theorem normalize_id_replicate_a (n : Nat) :
    normalizeWith id (String.mk (List.replicate n 'a')) =
      String.mk (List.replicate n 'a') := by
  rw [normalizeWith]
  have hbom : stripBOM (String.mk (List.replicate n 'a')).data =
      List.replicate n 'a' := by
    cases n with
    | zero => rfl
    | succ n =>
      rw [show (String.mk (List.replicate (n + 1) 'a')).data =
        'a' :: List.replicate n 'a' from by simp [List.replicate_succ]]
      rw [stripBOM, if_neg (by decide)]
      simp [List.replicate_succ]
  rw [hbom]
  have hq : toASCIIQuotes (List.replicate n 'a') = List.replicate n 'a' := by
    rw [toASCIIQuotes, List.map_replicate,
      show quoteChar 'a' = 'a' from by decide]
  have hs : stripControls (List.replicate n 'a') = List.replicate n 'a' := by
    rw [stripControls]
    refine List.filter_eq_self.mpr ?_
    intro a ha
    rw [List.eq_of_mem_replicate ha]
    decide
  rw [preNorm, hq, hs]
  rfl

/-! ### Claim C3 -/

/-- Claim C3 counterexample: the per-entry compilation never signals any
error — `graphOfEntry`, like the source loop, is total and produces a
graph for every entry — so a configured maximum node count validating
"compilation succeeds without GraphTooLarge exactly when the node count
is within the maximum" would have to bound every compiled graph's node
count.  No such bound exists: titles wrap into unboundedly many lines
(shown here in the default Japanese glyph mode, limit 16), so for any
candidate maximum `M` an entry whose title is `17 * M + 17` copies of
`a` compiles — with no error — into a graph of more than `M` nodes. -/
theorem c3_no_graph_too_large_counterexample :
    ¬ ∃ M : Nat, ∀ e : Entry,
        (graphOfEntry id jaDefaultStyle e).length ≤ M := by
  rintro ⟨M, hM⟩
  have hM' := hM (Entry.mk (String.mk (List.replicate (17 * M + 17) 'a')) [] ("x") [])
  have hnorm := normalize_id_replicate_a (17 * M + 17)
  have hne : String.mk (List.replicate (17 * M + 17) 'a') ≠ "" := by
    intro h
    have h2 : List.replicate (17 * M + 17) 'a' = ([] : List Char) :=
      congrArg String.data h
    have h3 : 17 * M + 17 = 0 := by simpa using h2
    omega
  have hil : itemLinesOf id jaDefaultStyle
      (Entry.mk (String.mk (List.replicate (17 * M + 17) 'a')) [] ("x") []) = [] := by
    simp [itemLinesOf, rawItemsOf]
  have htl : titleLinesOf id jaDefaultStyle
      (Entry.mk (String.mk (List.replicate (17 * M + 17) 'a')) [] ("x") []) =
      (wrapGlyphAux 16 (List.replicate (17 * M + 17) 'a') []).map
        String.mk := by
    rw [titleLinesOf]
    show wrapByLimit id
      (normalizeWith id (String.mk (List.replicate (17 * M + 17) 'a')))
      16 true = _
    rw [hnorm, wrapByLimit, hnorm, if_neg hne, if_pos rfl]
  have hg : (graphOfEntry id jaDefaultStyle
      (Entry.mk (String.mk (List.replicate (17 * M + 17) 'a')) [] ("x") [])).length =
      2 + (wrapGlyphAux 16 (List.replicate (17 * M + 17) 'a') []).length := by
    rw [graphOfEntry, hil, buildGraph_length, htl, List.length_map]
    simp
  have hcount : 17 * M + 17 ≤
      (wrapGlyphAux 16 (List.replicate (17 * M + 17) 'a') []).length * 17 := by
    have hjoin := wrapGlyphAux_flatten 16 (List.replicate (17 * M + 17) 'a') []
    have hsum : ((wrapGlyphAux 16 (List.replicate (17 * M + 17) 'a') []).map
        jsLen).sum = 17 * M + 17 := by
      rw [← jsLen_flatten, hjoin]
      simpa using jsLen_replicate_a (17 * M + 17)
    have hle := sum_le_mul_of_forall_le
      ((wrapGlyphAux 16 (List.replicate (17 * M + 17) 'a') []).map jsLen) 17 ?_
    · rw [hsum, List.length_map] at hle
      exact hle
    · intro x hx
      rcases List.mem_map.mp hx with ⟨l, hl, rfl⟩
      exact wrapGlyphAux_line_le 16 (by omega) _ [] (by simp [jsLen]) l hl
  rw [hg] at hM'
  omega

/-- Claim C3 (amended): the compiler enforces no maximum node count and
signals no error: every entry yields a graph, its node count is the
background and CTA nodes plus one node per title and item line, and the
only size control is the cap of 12 accepted items at input acceptance. -/
theorem c3_compile_total (nfc : String → String) (st : StyleParams)
    (e : Entry) :
    (graphOfEntry nfc st e).length =
        2 + (titleLinesOf nfc st e).length + (itemLinesOf nfc st e).length ∧
      (rawItemsOf nfc e).length ≤ 12 := by
  refine ⟨?_, ?_⟩
  · rw [graphOfEntry, buildGraph_length]
  · rw [rawItemsOf]
    exact List.length_take_le 12 _

/-! ### Claim C6 -/

/-- Claim C6 counterexample: `stripBOM` removes at most one leading
U+FEFF, so a title starting with a doubled byte-order mark loses one
BOM per `normalize` application: `normalize` is not idempotent on
`"﻿﻿a"`.  (The opaque NFC step is instantiated with `id`,
which agrees with real NFC here: U+FEFF and `a` have no canonical
decompositions and are not produced by composition.) -/
theorem c6_normalize_counterexample :
    normalizeWith id (normalizeWith id ("﻿﻿a")) ≠
      normalizeWith id ("﻿﻿a") := by
  decide

/-- Claim C6 (amended): `normalize` is idempotent on every input whose
normalized form does not itself begin with a byte-order mark; the
hypotheses on `nfc` are the Unicode guarantees of canonical composition
(idempotence, and preservation of strings already free of the mapped
quote/control characters). -/
theorem c6_normalize_idem (nfc : String → String) (s : String)
    (hnfc₁ : ∀ t, nfc (nfc t) = nfc t)
    (hnfc₂ : ∀ t : String, preNorm t.data = t.data →
      preNorm (nfc t).data = (nfc t).data)
    (hbom : (normalizeWith nfc s).data.head? ≠ some bomChar) :
    normalizeWith nfc (normalizeWith nfc s) = normalizeWith nfc s := by
  have hfix : preNorm (normalizeWith nfc s).data =
      (normalizeWith nfc s).data := by
    refine hnfc₂ (String.mk (preNorm (stripBOM s.data))) ?_
    exact preNorm_idem (stripBOM s.data)
  rw [normalizeWith, stripBOM_of_head_ne _ hbom, hfix]
  exact hnfc₁ _

/-- Witness for `c6_normalize_idem` at a concrete input (curly quote,
no byte-order mark), with `nfc := id`. -/
theorem c6_normalize_idem_witness :
    (∀ t : String, id (id t) = id t) ∧
      (∀ t : String, preNorm t.data = t.data →
        preNorm (id t).data = (id t).data) ∧
      (normalizeWith id ("a“b")).data.head? ≠ some bomChar ∧
      normalizeWith id (normalizeWith id ("a“b")) =
        normalizeWith id ("a“b") :=
  ⟨fun _ => rfl, fun _ h => h, by decide,
    c6_normalize_idem id ("a“b") (fun _ => rfl) (fun _ h => h) (by decide)⟩

/-- Witness for `c10_word_whitespace_shape` on an input with collapsed
whitespace runs. -/
theorem c10_word_whitespace_shape_witness :
    (∀ c ∈ ("a b" : String).data, isWsJS c = true → c = ' ') ∧
      (∀ c, ("a b" : String).data.head? = some c → isWsJS c = false) ∧
      (∀ c, ("a b" : String).data.getLast? = some c → isWsJS c = false) ∧
      ∃ ts : List (List Char),
        (∀ tk ∈ ts, tk ≠ [] ∧ ∀ c ∈ tk, isWsJS c = false) ∧
        ("a b" : String).data = joinSp ts :=
  c10_word_whitespace_shape id ("  a  b ") 5 ("a b") (by decide)

/-! ### Claim C9 -/

theorem drawTextNodes_filter_kind (k : NodeKind) (vi : Nat)
    (ls : List String) :
    ((drawTextNodes k vi ls).filter (fun n => n.kind == k)).length =
      ls.length := by
  induction ls generalizing vi with
  | nil => rfl
  | cons l ls ih => simp [drawTextNodes, List.filter_cons, ih]

/-- Claim C9 (confirmed, cap-8 variant of part_002 line 103 and the
first render_video.js variant line 97): for an entry carrying 20 items,
all nonblank, exactly the first 8 trimmed items are accepted — the
truncation happens at input acceptance, before graph compilation — and
the compiled chain contains exactly 8 item draw-text nodes, whatever
title and CTA literals accompany them.  (The most complete
render_video.js variant caps at 12 instead; spec §9 records the
inconsistency.) -/
theorem c9_item_cap_eight (items : List String) (title cta : String)
    (h20 : items.length = 20) (hne : ∀ s ∈ items, jsTrim s ≠ "") :
    (itemsAccepted items).length = 8 ∧
      itemsAccepted items = (items.map jsTrim).take 8 ∧
      ((buildGraphP2 title (itemsAccepted items) cta).filter
          (fun n => n.kind == NodeKind.itemText)).length = 8 := by
  have hfull : (items.map jsTrim).filter (fun s => s ≠ "") =
      items.map jsTrim := by
    refine List.filter_eq_self.mpr ?_
    intro a ha
    rcases List.mem_map.mp ha with ⟨s, hs, rfl⟩
    simpa using hne s hs
  have h1 : (itemsAccepted items).length = 8 := by
    rw [itemsAccepted, hfull, List.length_take, List.length_map, h20]
    decide
  refine ⟨h1, ?_, ?_⟩
  · rw [itemsAccepted, hfull]
  · rw [buildGraphP2]
    simp [List.filter_cons, List.filter_append, backgroundNode, ctaNode,
      drawTextNodes_filter_kind, h1]

/-- Witness for `c9_item_cap_eight` at a concrete 20-item entry. -/
theorem c9_item_cap_eight_witness :
    (["a1", "a2", "a3", "a4", "a5", "a6", "a7", "a8", "a9", "a10", "a11",
        "a12", "a13", "a14", "a15", "a16", "a17", "a18", "a19",
        "a20"].length = 20) ∧
      ((itemsAccepted ["a1", "a2", "a3", "a4", "a5", "a6", "a7", "a8", "a9",
          "a10", "a11", "a12", "a13", "a14", "a15", "a16", "a17", "a18",
          "a19", "a20"]).length = 8 ∧
        itemsAccepted ["a1", "a2", "a3", "a4", "a5", "a6", "a7", "a8", "a9",
            "a10", "a11", "a12", "a13", "a14", "a15", "a16", "a17", "a18",
            "a19", "a20"] =
          (["a1", "a2", "a3", "a4", "a5", "a6", "a7", "a8", "a9", "a10",
              "a11", "a12", "a13", "a14", "a15", "a16", "a17", "a18", "a19",
              "a20"].map jsTrim).take 8 ∧
        ((buildGraphP2 ("T")
              (itemsAccepted ["a1", "a2", "a3", "a4", "a5", "a6", "a7", "a8",
                "a9", "a10", "a11", "a12", "a13", "a14", "a15", "a16", "a17",
                "a18", "a19", "a20"]) ("C")).filter
            (fun n => n.kind == NodeKind.itemText)).length = 8) :=
  ⟨by decide,
    c9_item_cap_eight ["a1", "a2", "a3", "a4", "a5", "a6", "a7", "a8", "a9",
        "a10", "a11", "a12", "a13", "a14", "a15", "a16", "a17", "a18", "a19",
        "a20"] ("T") ("C") (by decide) (by decide)⟩

/-! ### Claim C2 -/

theorem unlinkAll_fresh (created : List TmpName) :
    ∀ fs : List TmpName, (∀ f ∈ created, f ∉ fs) →
      unlinkAll (fs ++ created) created = fs := by
  induction created with
  | nil => intro fs _; simp [unlinkAll]
  | cons c cs ih =>
    intro fs h
    rw [unlinkAll, List.foldl_cons]
    rw [List.erase_append_right _ (h c (by simp)),
      List.erase_cons_head]
    exact ih (fs) (fun f hf => h f (List.mem_cons_of_mem _ hf))

/-- Claim C2 counterexample: with one title line, one item line and a
failing engine run, the error is thrown at line 420 before the cleanup
loop at line 432, so all three of the unit's temporary text files
survive the attempt, refuting deletion on the failure path. -/
theorem c2_cleanup_counterexample :
    (runUnit [] 1 1 1 false).1 = Except.error "ffmpeg failed" ∧
      (runUnit [] 1 1 1 false).2 =
        [TmpName.titleTxt 1 0, TmpName.itemTxt 1 0, TmpName.ctaTxt 1] ∧
      (runUnit [] 1 1 1 false).2 ≠ [] := by
  refine ⟨rfl, rfl, by decide⟩

/-- Claim C2 (amended): the unit's temporary text files are all deleted
after the engine returns on the success path only; on a non-zero exit
the unit throws before its cleanup loop and every one of its (at least
one) created files remains. -/
theorem c2_cleanup_success_only (fs : List TmpName) (nT nI idx : Nat)
    (hfresh : ∀ f ∈ createdFiles nT nI idx, f ∉ fs) :
    (runUnit fs nT nI idx true).1 = Except.ok () ∧
      (runUnit fs nT nI idx true).2 = fs ∧
      (runUnit fs nT nI idx false).1 = Except.error "ffmpeg failed" ∧
      (runUnit fs nT nI idx false).2 = fs ++ createdFiles nT nI idx ∧
      createdFiles nT nI idx ≠ [] := by
  refine ⟨rfl, ?_, rfl, rfl, ?_⟩
  · show unlinkAll (fs ++ createdFiles nT nI idx) (createdFiles nT nI idx) = fs
    exact unlinkAll_fresh _ fs hfresh
  · rw [createdFiles]
    intro h
    have := congrArg List.length h
    simp at this

/-- Witness for `c2_cleanup_success_only` on an initially empty
temp-file state. -/
theorem c2_cleanup_success_only_witness :
    (∀ f ∈ createdFiles 1 1 1, f ∉ ([] : List TmpName)) ∧
      ((runUnit [] 1 1 1 true).1 = Except.ok () ∧
        (runUnit [] 1 1 1 true).2 = [] ∧
        (runUnit [] 1 1 1 false).1 = Except.error "ffmpeg failed" ∧
        (runUnit [] 1 1 1 false).2 = [] ++ createdFiles 1 1 1 ∧
        createdFiles 1 1 1 ≠ []) :=
  ⟨by decide, c2_cleanup_success_only [] 1 1 1 (by decide)⟩

/-! ### Claim C7 -/

theorem startsWithL_self (l : List Char) : startsWithL l l = true := by
  induction l with
  | nil => rfl
  | cons c cs ih => simp [startsWithL, ih]

theorem containsSub_self (sub : List Char) : containsSub sub sub = true := by
  cases sub with
  | nil => rfl
  | cons c cs => simp [containsSub, startsWithL_self]

theorem containsSub_append_self (pre sub : List Char) :
    containsSub (pre ++ sub) sub = true := by
  induction pre with
  | nil => simpa using containsSub_self sub
  | cons p pre' ih => simp [containsSub, ih]

/-- Claim C7 counterexample: the sidecar emitter (render_video.js line
424) appends the configured suffix unconditionally, so a content title
that already contains the suffix — here `"aX"` containing `"X"` — gets
it appended again, producing sidecar title `"aXX"` instead of the
claimed `"aX"`. -/
theorem c7_sidecar_counterexample :
    containsSub ("aX" : String).data ("X" : String).data = true ∧
      sidecarTitle id ("aX") ("X") = "aXX" ∧
      sidecarTitle id ("aX") ("X") ≠ "aX" := by
  refine ⟨by decide, by decide, by decide⟩

/-- Claim C7 (amended): the sidecar title is the normalized content
title with the suffix appended unconditionally — it therefore always
contains the suffix, and a title already containing it is
double-suffixed — while the omit-when-present rule lives in the
uploader, whose published title leaves a base title that already
contains the suffix unchanged (up to the 100-unit clamp). -/
theorem c7_upload_dedup (base suffix : String) (hs : suffix ≠ "")
    (hin : containsSub base.data suffix.data = true) :
    uploadTitle base suffix = clamp base 100 ∧
      ∀ (nfc : String → String) (t : String),
        containsSub (sidecarTitle nfc t suffix).data suffix.data = true := by
  constructor
  · rw [uploadTitle]
    rw [if_pos ⟨hs, Or.inr hin⟩]
  · intro nfc t
    rw [sidecarTitle, String.data_append]
    exact containsSub_append_self _ _

/-- Witness for `c7_upload_dedup` at a base title already carrying the
suffix. -/
theorem c7_upload_dedup_witness :
    (" | Ch" : String) ≠ "" ∧
      containsSub ("My title | Ch" : String).data
          (" | Ch" : String).data = true ∧
      (uploadTitle ("My title | Ch") (" | Ch") =
          clamp ("My title | Ch") 100 ∧
        ∀ (nfc : String → String) (t : String),
          containsSub (sidecarTitle nfc t (" | Ch")).data
            (" | Ch" : String).data = true) :=
  ⟨by decide, by decide,
    c7_upload_dedup ("My title | Ch") (" | Ch") (by decide) (by decide)⟩

end ShortRender
